import Mathlib

/-!
Verification of the transaction classification and derived-metrics pipeline of
`dashboard.py` (load_data, the filter block, and the aggregation views).

The embedding is a direct translation of the pandas pipeline:
  * dates are calendar triples ordered lexicographically (pandas datetime order);
  * amounts are integers (the claims under study are structural and do not
    depend on decimal precision);
  * a DataFrame column pipeline becomes a function on lists of records;
  * `pd.to_datetime(..., errors='coerce')` / `pd.to_numeric(..., errors='coerce')`
    results are `Option` fields of the raw row, `dropna` is a filter on them;
  * string operations are modelled on ASCII text (`.str.lower()`,
    `.str.replace(r'[\W_]+', ' ')`, `.str.strip()`).
Sorting: `sort_values('date')` is modelled with a stable insertion sort.
For the category views the sorted lists have at most 9 distinct keys
(8 rule-table categories plus `Other`), where numpy's sort runs its
insertion-sort base case, which is stable; the date sort of arbitrary size is
NOT assumed stable anywhere below.
-/

/-- Calendar date, the parse result of the `date` column. -/
structure Date where
  y : Nat
  m : Nat
  d : Nat
deriving DecidableEq, Repr

/-- Chronological order on dates (pandas datetime comparison), lexicographic. -/
def dateLe (a b : Date) : Bool :=
  decide (a.y < b.y) ||
    (decide (a.y = b.y) &&
      (decide (a.m < b.m) || (decide (a.m = b.m) && decide (a.d ≤ b.d))))

theorem dateLe_trans {a b c : Date} (h1 : dateLe a b = true) (h2 : dateLe b c = true) :
    dateLe a c = true := by
  simp only [dateLe, Bool.or_eq_true, Bool.and_eq_true, decide_eq_true_eq] at *
  omega

theorem dateLe_total (a b : Date) : dateLe a b = true ∨ dateLe b a = true := by
  simp only [dateLe, Bool.or_eq_true, Bool.and_eq_true, decide_eq_true_eq]
  omega

/-- ASCII lowercasing of one character (`str.lower()` restricted to ASCII). -/
def lowerChar (c : Char) : Char :=
  if 65 ≤ c.toNat ∧ c.toNat ≤ 90 then Char.ofNat (c.toNat + 32) else c

/-- Characters kept verbatim by the `[\W_]+` replacement: ASCII alphanumerics
(`\W` is non-word, and the class adds the underscore back in, so exactly the
alphanumerics survive). -/
def isWordChar (c : Char) : Bool :=
  c.isAlphanum

theorem lowerChar_idem (c : Char) : lowerChar (lowerChar c) = lowerChar c := by
  by_cases h : 65 ≤ c.toNat ∧ c.toNat ≤ 90
  · have e : lowerChar c = Char.ofNat (c.toNat + 32) := by
      unfold lowerChar; exact if_pos h
    rw [e]
    obtain ⟨h1, h2⟩ := h
    generalize c.toNat = n at h1 h2
    interval_cases n <;> decide
  · have e : lowerChar c = c := by
      unfold lowerChar; exact if_neg h
    rw [e]; exact e

theorem isWordChar_ne_space {c : Char} (h : isWordChar c = true) : c ≠ ' ' := by
  intro rfl_eq
  subst rfl_eq
  simp [isWordChar, Char.isAlphanum, Char.isAlpha, Char.isUpper, Char.isLower,
    Char.isDigit] at h

/-- One pass of `str.replace(r'[\W_]+', ' ', regex=True)`: every maximal run of
non-alphanumeric characters becomes a single space.  The flag records whether
the previous character was part of such a run (in which case further
non-alphanumeric characters emit nothing). -/
def collapseAux : Bool → List Char → List Char
  | _, [] => []
  | prevSpace, c :: rest =>
    if isWordChar c then c :: collapseAux false rest
    else
      match prevSpace with
      | true => collapseAux true rest
      | false => ' ' :: collapseAux true rest

/-- Python `str.strip()` on the replaced text: remove leading and trailing
spaces (after the replacement all whitespace is the single space). -/
def stripSpaces (l : List Char) : List Char :=
  ((l.dropWhile (fun c => c == ' ')).reverse.dropWhile (fun c => c == ' ')).reverse

/-- The description normalizer of `load_data` (the `clean_desc` column):
`df['description'].astype(str).str.lower()` then
`.str.replace(r'[\W_]+', ' ', regex=True).str.strip()`. -/
def clean_desc (l : List Char) : List Char :=
  stripSpaces (collapseAux false (l.map lowerChar))

/-- Substring test: `needle` occurs contiguously in the second list.  Models
`str.contains` on an already-lowercased description with the keyword
alternation pattern (each keyword is matched as a plain substring; the only
regex metacharacter in the table, the dot of `booking.com`, is immaterial to
the properties proved here). -/
def occursIn (needle : List Char) : List Char → Bool
  | [] => needle.isEmpty
  | c :: t => needle.isPrefixOf (c :: t) || occursIn needle t

/-- The category rule table of `load_data`, in declaration order. -/
def categories : List (String × List (List Char)) :=
  [ ("Groceries", ["tesco", "sainsbury", "aldi", "lidl", "asda", "morrisons",
      "waitrose", "food", "supermarket"].map String.toList),
    ("Transport", ["uber", "tfl", "train", "tube", "bus", "petrol", "fuel",
      "shell", "bp"].map String.toList),
    ("Salary", ["salary", "payroll", "income", "wage",
      "payment from"].map String.toList),
    ("Utilities", ["thames water", "british gas", "ee", "vodafone", "sky",
      "virgin", "council tax", "rent"].map String.toList),
    ("Entertainment", ["netflix", "spotify", "cinema", "restaurant", "pub",
      "bar", "cafe"].map String.toList),
    ("Shopping", ["amazon", "ebay", "boots", "primark",
      "online purchase"].map String.toList),
    ("Health", ["boots", "pharmacy", "doctor", "hospital",
      "superdrug"].map String.toList),
    ("Travel", ["ryanair", "easyjet", "booking.com", "hotel",
      "eurostar"].map String.toList) ]

/-- One category row matches when any of its keywords occurs in the cleaned
description (the `str.contains('|'.join(keywords))` mask of one row). -/
def catMatches (d : List Char) (kws : List (List Char)) : Bool :=
  kws.any (fun k => occursIn k d)

/-- The categorizer loop of `load_data` (lines 39–42) for a single row: start
from 'Other' and walk the table in declaration order, overwriting the label
whenever the current category matches. -/
def categorize (d : List Char) : String :=
  categories.foldl (fun acc p => if catMatches d p.2 then p.1 else acc) "Other"

/-- The signed-amount deriver (line 45): debits are negated, every other type
value is kept as-is. -/
def signedOf (ty : String) (amount : Int) : Int :=
  if ty == "debit" then -amount else amount

/-- One row of the canonical table built by `load_data`. -/
structure Txn where
  date : Date
  amount : Int
  type : String
  cleanDesc : List Char
  category : String
  signed_amount : Int
deriving DecidableEq, Repr

/-- A raw CSV row after the two `errors='coerce'` parses: `none` marks an
unparsable date or amount.  A missing description is `none`, which
`astype(str)` renders as the literal text "nan". -/
structure RawRow where
  date : Option Date
  amount : Option Int
  type : String
  description : Option String
deriving DecidableEq, Repr

/-- `astype(str)` on the description column. -/
def descText (o : Option String) : String :=
  o.getD "nan"

/-- Build the canonical columns of one retained row. -/
def parseRow (r : RawRow) : Option Txn :=
  match r.date, r.amount with
  | some d, some a =>
    some { date := d, amount := a, type := r.type,
           cleanDesc := clean_desc (descText r.description).toList,
           category := categorize (clean_desc (descText r.description).toList),
           signed_amount := signedOf r.type a }
  | _, _ => none

def txnLe (a b : Txn) : Prop := dateLe a.date b.date = true

instance : DecidableRel txnLe := fun a b => by
  unfold txnLe; infer_instance

/-- `sort_values('date')` on transaction records (modelled with a stable
insertion sort; no proof below relies on the tie order it produces). -/
def sortByDate (l : List Txn) : List Txn :=
  List.insertionSort txnLe l

/-- `load_data` (lines 18–47): parse the date and amount columns, drop rows
where either failed, clean the description, categorize, derive the signed
amount, and sort the table by date. -/
def load_data (rows : List RawRow) : List Txn :=
  sortByDate (rows.filterMap parseRow)

/-- The sidebar filter block (lines 64–68): keep transactions whose type is in
the selected set and whose date lies in the inclusive range. -/
def filterTxns (table : List Txn) (types : List String) (dfrom dto : Date) : List Txn :=
  table.filter (fun t =>
    types.contains t.type && dateLe dfrom t.date && dateLe t.date dto)

/-- Running sums with a starting accumulator. -/
def cumsumFrom (acc : Int) : List Int → List Int
  | [] => []
  | x :: r => (acc + x) :: cumsumFrom (acc + x) r

/-- `Series.cumsum()`. -/
def cumsum (l : List Int) : List Int :=
  cumsumFrom 0 l

/-- Lines 70–76: re-sort the filtered set by date, take the running sum of
`signed_amount`, and when the set is non-empty subtract the first running
value (`.iloc[0]`); the chart consumes the (date, cumulative) pairs. -/
def cumulative_net_worth (l : List Txn) : List (Date × Int) :=
  let s := sortByDate l
  let c := cumsum (s.map (fun t => t.signed_amount))
  let c2 := if 0 < s.length then c.map (fun v => v - c.headD 0) else c
  (s.map (fun t => t.date)).zip c2

/-- Month counter used for the monthly resample bins. -/
def monthIdx (d : Date) : Nat :=
  d.y * 12 + (d.m - 1)

/-- First-of-month label of a bin (`'MS'` resample labels). -/
def monthStart (i : Nat) : Date :=
  ⟨i / 12, i % 12 + 1, 1⟩

/-- Sum of `signed_amount` over a set of transactions. -/
def sumSigned (l : List Txn) : Int :=
  l.foldl (fun s t => s + t.signed_amount) 0

/-- Line 121, `filtered.set_index('date').resample('MS')['signed_amount'].sum()`:
pandas resample produces one bin per calendar month from the month of the
earliest index value to the month of the latest, labels each bin with its
month start, and sums `signed_amount` per bin, an empty bin summing to 0.
Resampling an empty frame yields an empty frame. -/
def resample_monthly (l : List Txn) : List (Date × Int) :=
  match l with
  | [] => []
  | t :: ts =>
    let lo := ts.foldl (fun a x => min a (monthIdx x.date)) (monthIdx t.date)
    let hi := ts.foldl (fun a x => max a (monthIdx x.date)) (monthIdx t.date)
    (List.range (hi + 1 - lo)).map (fun k =>
      (monthStart (lo + k),
        sumSigned ((t :: ts).filter (fun x => monthIdx x.date == lo + k))))

/-- Sum of `amount` over the rows of one category. -/
def catSum (sel : List Txn) (c : String) : Int :=
  (sel.filter (fun t => t.category == c)).foldl (fun s t => s + t.amount) 0

/-- Lexicographic code-point comparison of strings (Python string order, used
by `groupby`'s key sort). -/
def charListLe : List Char → List Char → Bool
  | [], _ => true
  | _ :: _, [] => false
  | a :: as, b :: bs => if a = b then charListLe as bs else decide (a < b)

/-- Strict name order: at most one of `strNameLt a b`, `strNameLt b a` holds. -/
def strNameLt (a b : String) : Prop :=
  charListLe a.data b.data = true ∧ a ≠ b

def catKeys (sel : List Txn) : List String :=
  List.insertionSort (fun a b : String => charListLe a.data b.data = true)
    (sel.map (fun t => t.category)).dedup

/-- The `groupby('Category')['amount'].sum()` series: one entry per distinct
category, keyed ascending. -/
def groupedPairs (sel : List Txn) : List (String × Int) :=
  (catKeys sel).map (fun c => (c, catSum sel c))

/-- Lines 189 and 207:
`filtered[filtered['type'] == ty].groupby('Category')['amount'].sum().sort_values(ascending=True)`.
`groupby` (with its default `sort=True`) emits one row per distinct category,
keyed in ascending category order; `sort_values` then orders by the sums.  The
value sort is modelled stably: the series has at most 9 entries (the 8 table
categories plus 'Other'), within numpy's insertion-sort base case, which
keeps the key order on ties. -/
def group_by_category (l : List Txn) (ty : String) : List (String × Int) :=
  List.insertionSort (fun p q : String × Int => p.2 ≤ q.2)
    (groupedPairs (l.filter (fun t => t.type == ty)))

/-- Ascending by summed amount, ties by category name (strictly, since names
are distinct after grouping). -/
def lexLe (p q : String × Int) : Prop :=
  p.2 < q.2 ∨ (p.2 = q.2 ∧ strNameLt p.1 q.1)

/-- A transaction row of a DataFrame cell, with the optional `cumulative`
column (absent on the canonical table, added on the filtered copy). -/
structure Row where
  txn : Txn
  cumulative : Option Int
deriving DecidableEq, Repr

def rowLe (a b : Row) : Prop := dateLe a.txn.date b.txn.date = true

instance : DecidableRel rowLe := fun a b => by
  unfold rowLe; infer_instance

def sortRows (l : List Row) : List Row :=
  List.insertionSort rowLe l

/-- A store of DataFrame objects: `df[...]​.copy()` allocates a new cell and
column assignment mutates a cell in place, so aliasing is observable. -/
abbrev Frame := List Row

abbrev Heap := List Frame

def heapGet (h : Heap) (r : Nat) : Frame :=
  h.getD r []

/-- The row mask of lines 64–67 on `Row` records. -/
def rowPred (types : List String) (a b : Date) (r : Row) : Bool :=
  types.contains r.txn.type && dateLe a r.txn.date && dateLe r.txn.date b

/-- `filtered['cumulative'] = filtered['signed_amount'].cumsum()` as a frame
transformation (the new column overwrites any previous one). -/
def setCumsum (f : Frame) : Frame :=
  (f.zip (cumsum (f.map (fun r => r.txn.signed_amount)))).map
    (fun p => ⟨p.1.txn, some p.2⟩)

/-- `filtered['cumulative'] = filtered['cumulative'] - filtered['cumulative'].iloc[0]`. -/
def zeroBase (f : Frame) : Frame :=
  match f.head? with
  | none => f
  | some r0 => f.map (fun r => ⟨r.txn, r.cumulative.map (fun v => v - r0.cumulative.getD 0)⟩)

/-- Lines 64–76 run against the store: select-and-copy the filtered rows
(fresh cell), `sort_values` (a fresh object rebound to the name `filtered`),
then two in-place column assignments on the copy, the second one guarded by
`len(filtered) > 0`.  Returns the store and the reference held by `filtered`. -/
def runFilterView (h : Heap) (r : Nat) (types : List String) (a b : Date) :
    Heap × Nat :=
  let h1 := h ++ [(heapGet h r).filter (rowPred types a b)]
  let r1 := h.length
  let h2 := h1 ++ [sortRows (heapGet h1 r1)]
  let r2 := h1.length
  let h3 := h2.set r2 (setCumsum (heapGet h2 r2))
  let h4 := if 0 < (heapGet h3 r2).length then h3.set r2 (zeroBase (heapGet h3 r2))
            else h3
  (h4, r2)

/-- The value the filtered view is expected to hold, as a pure function of the
canonical table's content. -/
def mkFilteredView (base : Frame) (types : List String) (a b : Date) : Frame :=
  let f := setCumsum (sortRows (base.filter (rowPred types a b)))
  if 0 < f.length then zeroBase f else f

/-- Concrete raw batch: one valid row, one unparsable date, one unparsable
amount. -/
def exRows : List RawRow :=
  [⟨some ⟨2024, 1, 5⟩, some 20, "debit", some "Tesco groceries"⟩,
   ⟨none, some 5, "debit", some "bad date"⟩,
   ⟨some ⟨2024, 1, 1⟩, none, "credit", some "bad amount"⟩]

/-- The transaction `load_data` builds from the valid row of `exRows`. -/
def exTxn : Txn :=
  { date := ⟨2024, 1, 5⟩, amount := 20, type := "debit",
    cleanDesc := "tesco groceries".toList, category := "Groceries",
    signed_amount := -20 }

/-- A raw batch whose only row has a type that is neither credit nor debit. -/
def exRows8 : List RawRow :=
  [⟨some ⟨2024, 3, 1⟩, some 7, "transfer", some "misc"⟩]

/-- The transaction `load_data` builds from `exRows8`. -/
def exT8 : Txn :=
  { date := ⟨2024, 3, 1⟩, amount := 7, type := "transfer",
    cleanDesc := "misc".toList, category := "Other", signed_amount := 7 }

/-- Transactions in January and March 2024 with no February transaction. -/
def exGap : List Txn :=
  [{ date := ⟨2024, 1, 15⟩, amount := 10, type := "credit", cleanDesc := [],
     category := "Other", signed_amount := 10 },
   { date := ⟨2024, 3, 10⟩, amount := 5, type := "debit", cleanDesc := [],
     category := "Other", signed_amount := -5 }]

/-- A small filtered set with two Groceries debits, an Other debit and a
Salary credit. -/
def exTable5 : List Txn :=
  [{ date := ⟨2024, 1, 1⟩, amount := 20, type := "debit", cleanDesc := [],
     category := "Groceries", signed_amount := -20 },
   { date := ⟨2024, 1, 2⟩, amount := 30, type := "debit", cleanDesc := [],
     category := "Groceries", signed_amount := -30 },
   { date := ⟨2024, 1, 3⟩, amount := 5, type := "debit", cleanDesc := [],
     category := "Other", signed_amount := -5 },
   { date := ⟨2024, 1, 4⟩, amount := 100, type := "credit", cleanDesc := [],
     category := "Salary", signed_amount := 100 }]

/-- A one-cell store holding a canonical table (no cumulative column). -/
def exHeap : Heap :=
  [[⟨exTxn, none⟩, ⟨exT8, none⟩]]

theorem collapseAux_mem {c : Char} :
    ∀ {b : Bool} {l : List Char}, c ∈ collapseAux b l →
      c = ' ' ∨ (isWordChar c = true ∧ c ∈ l) := by
  intro b l
  induction l generalizing b with
  | nil => intro h; simp [collapseAux] at h
  | cons x rest ih =>
    intro h
    by_cases hw : isWordChar x
    · cases b <;> simp only [collapseAux, hw, if_pos] at h <;>
        (rcases List.mem_cons.mp h with h1 | h2
         · subst h1; exact Or.inr ⟨hw, List.mem_cons_self _ _⟩
         · rcases ih h2 with h3 | ⟨h4, h5⟩
           · exact Or.inl h3
           · exact Or.inr ⟨h4, List.mem_cons_of_mem _ h5⟩)
    · cases b
      · simp only [collapseAux, hw, if_neg, Bool.false_eq_true, not_false_iff] at h
        rcases List.mem_cons.mp h with h1 | h2
        · exact Or.inl h1
        · rcases ih h2 with h3 | ⟨h4, h5⟩
          · exact Or.inl h3
          · exact Or.inr ⟨h4, List.mem_cons_of_mem _ h5⟩
      · simp only [collapseAux, hw, if_neg, Bool.false_eq_true, not_false_iff] at h
        rcases ih h with h3 | ⟨h4, h5⟩
        · exact Or.inl h3
        · exact Or.inr ⟨h4, List.mem_cons_of_mem _ h5⟩

theorem collapseAux_true_head :
    ∀ (l : List Char), (collapseAux true l).head? ≠ some ' ' := by
  intro l
  induction l with
  | nil => simp [collapseAux]
  | cons x rest ih =>
    by_cases hw : isWordChar x
    · simp only [collapseAux, hw, if_pos, List.head?_cons]
      intro h
      exact isWordChar_ne_space hw (Option.some.inj h)
    · simpa only [collapseAux, hw, Bool.false_eq_true, if_neg, not_false_iff] using ih

theorem collapseAux_chain :
    ∀ (b : Bool) (l : List Char),
      (collapseAux b l).Chain' (fun a c => a = ' ' → c ≠ ' ') := by
  intro b l
  induction l generalizing b with
  | nil => cases b <;> simp [collapseAux]
  | cons x rest ih =>
    by_cases hw : isWordChar x
    · have step : (collapseAux b (x :: rest)) = x :: collapseAux false rest := by
        cases b <;> simp [collapseAux, hw]
      rw [step]
      refine List.chain'_cons'.mpr ⟨?_, ih false⟩
      intro y _ hx
      exact absurd hx (isWordChar_ne_space hw)
    · cases b
      · have step : (collapseAux false (x :: rest)) = ' ' :: collapseAux true rest := by
          simp [collapseAux, hw]
        rw [step]
        refine List.chain'_cons'.mpr ⟨?_, ih true⟩
        intro y hy _
        intro hy'
        rw [Option.mem_def] at hy
        exact collapseAux_true_head rest (hy' ▸ hy)
      · have step : (collapseAux true (x :: rest)) = collapseAux true rest := by
          simp [collapseAux, hw]
        rw [step]
        exact ih true

theorem head?_dropWhile_ne {α : Type} (p : α → Bool) (l : List α) {a : α}
    (h : (l.dropWhile p).head? = some a) : p a = false := by
  have hm := List.head?_dropWhile_not p l
  rw [h] at hm
  exact hm

theorem mem_stripSpaces {c : Char} {l : List Char} (h : c ∈ stripSpaces l) : c ∈ l := by
  unfold stripSpaces at h
  rw [List.mem_reverse] at h
  have h1 := (List.dropWhile_sublist _).subset h
  rw [List.mem_reverse] at h1
  exact (List.dropWhile_sublist _).subset h1

theorem stripSpaces_getLast (l : List Char) : (stripSpaces l).getLast? ≠ some ' ' := by
  unfold stripSpaces
  rw [List.getLast?_reverse]
  intro h
  have := head?_dropWhile_ne _ _ h
  simp at this

theorem stripSpaces_head (l : List Char) : (stripSpaces l).head? ≠ some ' ' := by
  unfold stripSpaces
  rw [List.head?_reverse]
  intro h
  set d1 := l.dropWhile (fun c => c == ' ') with hd1
  set d2 := d1.reverse.dropWhile (fun c => c == ' ') with hd2
  rcases List.dropWhile_suffix (l := d1.reverse) (fun c => c == ' ') with ⟨w, hw⟩
  have hne : d2 ≠ [] := by
    intro hnil
    rw [hnil] at h
    simp at h
  rw [← hd2] at hw
  have h2 : d1.reverse.getLast? = some ' ' := by
    rw [← hw, List.getLast?_append_of_ne_nil _ hne]
    exact h
  rw [List.getLast?_reverse] at h2
  have := head?_dropWhile_ne _ _ h2
  simp at this

theorem stripSpaces_chain {R : Char → Char → Prop} {l : List Char}
    (h : l.Chain' R) : (stripSpaces l).Chain' R := by
  unfold stripSpaces
  apply List.chain'_reverse.mpr
  apply List.Chain'.suffix _ (List.dropWhile_suffix _)
  apply List.chain'_reverse.mpr
  exact List.Chain'.suffix h (List.dropWhile_suffix _)

theorem stripSpaces_eq_self {l : List Char}
    (hh : l.head? ≠ some ' ') (hl : l.getLast? ≠ some ' ') : stripSpaces l = l := by
  unfold stripSpaces
  have e1 : l.dropWhile (fun c => c == ' ') = l := by
    cases l with
    | nil => rfl
    | cons x xs =>
      rw [List.dropWhile_cons]
      have : (x == ' ') = false := by
        cases hbe : (x == ' ')
        · rfl
        · exact absurd (by simp [eq_of_beq hbe]) hh
      simp [this]
  rw [e1]
  have e2 : l.reverse.dropWhile (fun c => c == ' ') = l.reverse := by
    cases hr : l.reverse with
    | nil => rfl
    | cons x xs =>
      rw [List.dropWhile_cons]
      have hx : l.reverse.head? = some x := by rw [hr]; rfl
      rw [List.head?_reverse] at hx
      have : (x == ' ') = false := by
        cases hbe : (x == ' ')
        · rfl
        · exact absurd (by rw [← eq_of_beq hbe]; exact hx) hl
      simp [this]
  rw [e2, List.reverse_reverse]

theorem map_fix {α : Type} {f : α → α} :
    ∀ (l : List α), (∀ c ∈ l, f c = c) → l.map f = l := by
  intro l h
  induction l with
  | nil => rfl
  | cons x xs ih =>
    rw [List.map_cons, h x (List.mem_cons_self _ _),
      ih (fun c hc => h c (List.mem_cons_of_mem _ hc))]

theorem collapseAux_fix :
    ∀ (l : List Char),
      (∀ c ∈ l, isWordChar c = true ∨ c = ' ') →
      l.Chain' (fun a c => a = ' ' → c ≠ ' ') →
      l.getLast? ≠ some ' ' →
      collapseAux false l = l ∧ (l.head? ≠ some ' ' → collapseAux true l = l) := by
  intro l
  induction l with
  | nil => exact fun _ _ _ => ⟨rfl, fun _ => rfl⟩
  | cons x rest ih =>
    intro hgood hchain hlast
    have hgood' : ∀ c ∈ rest, isWordChar c = true ∨ c = ' ' :=
      fun c hc => hgood c (List.mem_cons_of_mem _ hc)
    have hchain' : rest.Chain' (fun a c => a = ' ' → c ≠ ' ') :=
      (List.chain'_cons'.mp hchain).2
    have hhead_rel : ∀ y ∈ rest.head?, x = ' ' → y ≠ ' ' :=
      (List.chain'_cons'.mp hchain).1
    by_cases hw : isWordChar x
    · have hlast' : rest.getLast? ≠ some ' ' := by
        cases rest with
        | nil => simp
        | cons r rs => rw [List.getLast?_cons_cons] at hlast; exact hlast
      have hrest := (ih hgood' hchain' hlast').1
      have e1 : collapseAux false (x :: rest) = x :: collapseAux false rest := by
        simp [collapseAux, hw]
      have e2 : collapseAux true (x :: rest) = x :: collapseAux false rest := by
        simp [collapseAux, hw]
      exact ⟨by rw [e1, hrest], fun _ => by rw [e2, hrest]⟩
    · have hx : x = ' ' := (hgood x (List.mem_cons_self _ _)).resolve_left hw
      subst hx
      have hrestne : rest ≠ [] := by
        intro hnil
        subst hnil
        exact hlast rfl
      have hlast' : rest.getLast? ≠ some ' ' := by
        cases rest with
        | nil => simp
        | cons r rs => rw [List.getLast?_cons_cons] at hlast; exact hlast
      have hresthead : rest.head? ≠ some ' ' := by
        intro hsome
        exact hhead_rel ' ' (Option.mem_def.mpr hsome) rfl rfl
      have hrest := (ih hgood' hchain' hlast').2 hresthead
      have hwf : isWordChar ' ' = false := by decide
      have e1 : collapseAux false (' ' :: rest) = ' ' :: collapseAux true rest := by
        simp [collapseAux, hwf]
      refine ⟨by rw [e1, hrest], fun hh => (hh rfl).elim⟩

theorem clean_desc_good (l : List Char) :
    ∀ c ∈ clean_desc l, isWordChar c = true ∨ c = ' ' := by
  intro c hc
  rcases collapseAux_mem (mem_stripSpaces hc) with h | ⟨hw, _⟩
  · exact Or.inr h
  · exact Or.inl hw

theorem clean_desc_lower (l : List Char) :
    ∀ c ∈ clean_desc l, lowerChar c = c := by
  intro c hc
  rcases collapseAux_mem (mem_stripSpaces hc) with h | ⟨_, hm⟩
  · subst h; decide
  · rcases List.mem_map.mp hm with ⟨a, _, ha⟩
    rw [← ha]
    exact lowerChar_idem a

theorem clean_desc_fix {t : List Char}
    (hfix : ∀ c ∈ t, lowerChar c = c)
    (hgood : ∀ c ∈ t, isWordChar c = true ∨ c = ' ')
    (hchain : t.Chain' (fun a c => a = ' ' → c ≠ ' '))
    (hhead : t.head? ≠ some ' ')
    (hlast : t.getLast? ≠ some ' ') :
    clean_desc t = t := by
  unfold clean_desc
  rw [map_fix t hfix, (collapseAux_fix t hgood hchain hlast).1]
  exact stripSpaces_eq_self hhead hlast

/-- C7: the description normalization of `load_data` (lowercase, collapse every
maximal run of non-alphanumeric characters to one space, trim) is idempotent:
normalizing an already-normalized string changes nothing. -/
theorem claim_C7_normalize_idempotent (l : List Char) :
    clean_desc (clean_desc l) = clean_desc l :=
  clean_desc_fix (clean_desc_lower l) (clean_desc_good l)
    (stripSpaces_chain (collapseAux_chain false _))
    (stripSpaces_head _) (stripSpaces_getLast _)

theorem categorize_foldl_eq (d : List Char) :
    ∀ (table : List (String × List (List Char))) (acc : String),
      table.foldl (fun acc p => if catMatches d p.2 then p.1 else acc) acc =
        ((table.reverse.find? (fun p => catMatches d p.2)).map Prod.fst).getD acc := by
  intro table
  induction table with
  | nil => intro acc; rfl
  | cons p rest ih =>
    intro acc
    rw [List.foldl_cons, ih, List.reverse_cons, List.find?_append]
    cases hf : rest.reverse.find? (fun q => catMatches d q.2) with
    | some q => simp
    | none =>
      cases hm : catMatches d p.2 <;> simp [List.find?, hm]

/-- C1 (amended): the categorizer walks the rule table in declaration order
and every matching category OVERWRITES the current label, so the final label
is the LAST (latest-declared) category whose keyword list has a keyword
occurring in the description, and 'Other' when none matches; in particular a
description containing only "boots" resolves to Health, the later-declared of
the two categories listing that keyword. -/
theorem claim_C1_amended_categorize_last_match (d : List Char) :
    categorize d =
      ((categories.reverse.find? (fun p => catMatches d p.2)).map Prod.fst).getD "Other" ∧
    categorize ("boots".toList) = "Health" :=
  ⟨categorize_foldl_eq d categories "Other", by decide⟩

/-- C1 counterexample: in the configured table, Shopping (position 5) is
declared before Health (position 6) and both list the keyword "boots", yet the
description "boots" is NOT assigned the earlier-declared category. -/
theorem claim_C1_counterexample :
    categories.map Prod.fst =
      ["Groceries", "Transport", "Salary", "Utilities", "Entertainment",
        "Shopping", "Health", "Travel"] ∧
    "boots".toList ∈ (categories.getD 5 ("", [])).2 ∧
    "boots".toList ∈ (categories.getD 6 ("", [])).2 ∧
    categorize ("boots".toList) ≠ "Shopping" := by
  decide

theorem mem_load_data_parsed {rows : List RawRow} {t : Txn}
    (ht : t ∈ load_data rows) : ∃ r ∈ rows, parseRow r = some t := by
  unfold load_data sortByDate at ht
  have ht' : t ∈ rows.filterMap parseRow :=
    (List.perm_insertionSort txnLe _).mem_iff.mp ht
  obtain ⟨r, hr, hp⟩ := List.mem_filterMap.mp ht'
  exact ⟨r, hr, hp⟩

theorem load_data_fields {rows : List RawRow} {t : Txn} (ht : t ∈ load_data rows) :
    t.signed_amount = signedOf t.type t.amount ∧
    t.category = categorize t.cleanDesc ∧
    ∃ r ∈ rows, r.date = some t.date ∧ r.amount = some t.amount := by
  obtain ⟨r, hr, hp⟩ := mem_load_data_parsed ht
  unfold parseRow at hp
  cases hd : r.date with
  | none => rw [hd] at hp; exact absurd hp (by simp)
  | some d =>
    cases ha : r.amount with
    | none => rw [hd, ha] at hp; exact absurd hp (by simp)
    | some a =>
      rw [hd, ha] at hp
      have he := Option.some.inj hp
      subst he
      exact ⟨rfl, rfl, r, hr, by rw [hd], by rw [ha]⟩

/-- C6: rows whose date or amount failed to parse are dropped by `load_data`
and never appear in the canonical table; every retained transaction stems from
a row with a successfully parsed date and amount. -/
theorem claim_C6_unparsable_rows_dropped (rows : List RawRow) :
    load_data rows =
      load_data (rows.filter (fun r => r.date.isSome && r.amount.isSome)) ∧
    ∀ t ∈ load_data rows, ∃ r ∈ rows, r.date = some t.date ∧ r.amount = some t.amount := by
  constructor
  · unfold load_data
    congr 1
    induction rows with
    | nil => rfl
    | cons r rest ih =>
      cases hd : r.date with
      | none => simp [List.filterMap_cons, List.filter_cons, parseRow, hd, ih]
      | some d =>
        cases ha : r.amount with
        | none => simp [List.filterMap_cons, List.filter_cons, parseRow, hd, ha, ih]
        | some a => simp [List.filterMap_cons, List.filter_cons, parseRow, hd, ha, ih]
  · intro t ht
    exact (load_data_fields ht).2.2

/-- C6 witness: a concrete raw batch with one valid row, one unparsable date
and one unparsable amount; the valid row's transaction is retained and traces
back to a fully parsed raw row. -/
theorem claim_C6_witness :
    exTxn ∈ load_data exRows ∧
    ∃ r ∈ exRows, r.date = some exTxn.date ∧ r.amount = some exTxn.amount :=
  ⟨by decide, (claim_C6_unparsable_rows_dropped exRows).2 exTxn (by decide)⟩

/-- C8: for every transaction the loader retains, signed_amount is −amount
exactly when the type is 'debit', and +amount for every other type value (an
unrecognized type is treated like credit: not negated). -/
theorem claim_C8_signed_amount (rows : List RawRow) :
    ∀ t ∈ load_data rows,
      (t.type = "debit" → t.signed_amount = -t.amount) ∧
      (t.type ≠ "debit" → t.signed_amount = t.amount) := by
  intro t ht
  have hs := (load_data_fields ht).1
  constructor
  · intro hty
    rw [hs]
    unfold signedOf
    rw [if_pos (by rw [hty]; rfl)]
  · intro hty
    rw [hs]
    unfold signedOf
    rw [if_neg (by simpa using hty)]

/-- C8 witness: a row whose type is neither 'credit' nor 'debit' ("transfer")
is loaded with a non-negated signed amount. -/
theorem claim_C8_witness :
    exT8 ∈ load_data exRows8 ∧ exT8.type ≠ "debit" ∧ exT8.signed_amount = exT8.amount :=
  ⟨by decide, by decide,
    (claim_C8_signed_amount exRows8 exT8 (by decide)).2 (by decide)⟩

/-- C9: a filter request with date_from after date_to yields the empty set
rather than an error, and for a well-ordered range the filter keeps exactly
the transactions whose type is selected and whose date lies in the inclusive
range. -/
theorem claim_C9_filter (table : List Txn) (types : List String) (dfrom dto : Date) :
    (dateLe dfrom dto = false → filterTxns table types dfrom dto = []) ∧
    (dateLe dfrom dto = true → ∀ t,
      t ∈ filterTxns table types dfrom dto ↔
        (t ∈ table ∧ t.type ∈ types ∧
          dateLe dfrom t.date = true ∧ dateLe t.date dto = true)) := by
  constructor
  · intro hbad
    unfold filterTxns
    rw [List.filter_eq_nil_iff]
    intro t _
    intro hkeep
    rw [Bool.and_eq_true, Bool.and_eq_true] at hkeep
    have := dateLe_trans hkeep.1.2 hkeep.2
    rw [this] at hbad
    exact Bool.noConfusion hbad
  · intro _ t
    unfold filterTxns
    rw [List.mem_filter, Bool.and_eq_true, Bool.and_eq_true]
    constructor
    · rintro ⟨hm, ⟨⟨hc, h1⟩, h2⟩⟩
      exact ⟨hm, by simpa using hc, h1, h2⟩
    · rintro ⟨hm, hc, h1, h2⟩
      exact ⟨hm, ⟨⟨by simpa using hc, h1⟩, h2⟩⟩

/-- C9 witness: an inverted range on a concrete table gives the empty set, and
a well-ordered range gives the membership characterization at a concrete
transaction. -/
theorem claim_C9_witness :
    filterTxns [exTxn] ["debit"] ⟨2024, 2, 1⟩ ⟨2024, 1, 1⟩ = [] ∧
    (exTxn ∈ filterTxns [exTxn] ["debit"] ⟨2024, 1, 1⟩ ⟨2024, 2, 1⟩ ↔
      (exTxn ∈ [exTxn] ∧ exTxn.type ∈ ["debit"] ∧
        dateLe ⟨2024, 1, 1⟩ exTxn.date = true ∧
        dateLe exTxn.date ⟨2024, 2, 1⟩ = true)) :=
  ⟨(claim_C9_filter [exTxn] ["debit"] ⟨2024, 2, 1⟩ ⟨2024, 1, 1⟩).1 (by decide),
   (claim_C9_filter [exTxn] ["debit"] ⟨2024, 1, 1⟩ ⟨2024, 2, 1⟩).2 (by decide) exTxn⟩

/-- C4: for a non-empty filtered set the first entry of the cumulative
net-worth series is 0 — the first running value is subtracted from every
entry, whatever the first transaction's signed amount — and the empty set
yields the empty series with no zero-basing step. -/
theorem claim_C4_cumulative_zero_based (l : List Txn) :
    (l = [] → cumulative_net_worth l = []) ∧
    (l ≠ [] → (cumulative_net_worth l).head?.map Prod.snd = some 0) := by
  constructor
  · intro h; subst h; rfl
  · intro hne
    have hlen : (sortByDate l).length = l.length :=
      (List.perm_insertionSort txnLe l).length_eq
    cases hs : sortByDate l with
    | nil =>
      rw [hs] at hlen
      exact absurd (List.length_eq_zero.mp hlen.symm) hne
    | cons t ts =>
      unfold cumulative_net_worth
      rw [hs]
      simp [cumsum, cumsumFrom, List.headD]

/-- C4 witness: a concrete two-transaction set whose first signed amount is 10
still yields a series starting at 0. -/
theorem claim_C4_witness :
    exGap ≠ [] ∧ (cumulative_net_worth exGap).head?.map Prod.snd = some 0 :=
  ⟨by decide, (claim_C4_cumulative_zero_based exGap).2 (by decide)⟩

theorem foldl_min_le_init {α : Type} (g : α → Nat) :
    ∀ (l : List α) (a : Nat), l.foldl (fun acc x => min acc (g x)) a ≤ a := by
  intro l
  induction l with
  | nil => intro a; exact Nat.le_refl a
  | cons x xs ih =>
    intro a
    exact Nat.le_trans (ih _) (Nat.min_le_left _ _)

theorem foldl_min_le_mem {α : Type} (g : α → Nat) :
    ∀ (l : List α) (a : Nat) (x : α), x ∈ l →
      l.foldl (fun acc y => min acc (g y)) a ≤ g x := by
  intro l
  induction l with
  | nil => intro a x hx; exact absurd hx (List.not_mem_nil x)
  | cons z zs ih =>
    intro a x hx
    rcases List.mem_cons.mp hx with h | h
    · subst h
      exact Nat.le_trans (foldl_min_le_init g zs _) (Nat.min_le_right _ _)
    · exact ih _ x h

theorem foldl_min_attained {α : Type} (g : α → Nat) :
    ∀ (l : List α) (a : Nat),
      l.foldl (fun acc x => min acc (g x)) a = a ∨
        ∃ x ∈ l, l.foldl (fun acc x => min acc (g x)) a = g x := by
  intro l
  induction l with
  | nil => intro a; exact Or.inl rfl
  | cons z zs ih =>
    intro a
    rcases ih (min a (g z)) with h | ⟨x, hx, hfx⟩
    · rw [List.foldl_cons, h]
      rcases Nat.le_total a (g z) with hle | hle
      · exact Or.inl (Nat.min_eq_left hle)
      · exact Or.inr ⟨z, List.mem_cons_self _ _, Nat.min_eq_right hle⟩
    · exact Or.inr ⟨x, List.mem_cons_of_mem _ hx, hfx⟩

theorem foldl_max_init_le {α : Type} (g : α → Nat) :
    ∀ (l : List α) (a : Nat), a ≤ l.foldl (fun acc x => max acc (g x)) a := by
  intro l
  induction l with
  | nil => intro a; exact Nat.le_refl a
  | cons x xs ih =>
    intro a
    exact Nat.le_trans (Nat.le_max_left _ _) (ih _)

theorem foldl_max_mem_le {α : Type} (g : α → Nat) :
    ∀ (l : List α) (a : Nat) (x : α), x ∈ l →
      g x ≤ l.foldl (fun acc y => max acc (g y)) a := by
  intro l
  induction l with
  | nil => intro a x hx; exact absurd hx (List.not_mem_nil x)
  | cons z zs ih =>
    intro a x hx
    rcases List.mem_cons.mp hx with h | h
    · subst h
      exact Nat.le_trans (Nat.le_max_right _ _) (foldl_max_init_le g zs _)
    · exact ih _ x h

theorem foldl_max_attained {α : Type} (g : α → Nat) :
    ∀ (l : List α) (a : Nat),
      l.foldl (fun acc x => max acc (g x)) a = a ∨
        ∃ x ∈ l, l.foldl (fun acc x => max acc (g x)) a = g x := by
  intro l
  induction l with
  | nil => intro a; exact Or.inl rfl
  | cons z zs ih =>
    intro a
    rcases ih (max a (g z)) with h | ⟨x, hx, hfx⟩
    · rw [List.foldl_cons, h]
      rcases Nat.le_total a (g z) with hle | hle
      · exact Or.inr ⟨z, List.mem_cons_self _ _, Nat.max_eq_right hle⟩
      · exact Or.inl (Nat.max_eq_left hle)
    · exact Or.inr ⟨x, List.mem_cons_of_mem _ hx, hfx⟩

theorem resample_monthly_cons (t : Txn) (ts : List Txn) :
    resample_monthly (t :: ts) =
      (List.range
          (ts.foldl (fun a x => max a (monthIdx x.date)) (monthIdx t.date) + 1 -
            ts.foldl (fun a x => min a (monthIdx x.date)) (monthIdx t.date))).map
        (fun k =>
          (monthStart (ts.foldl (fun a x => min a (monthIdx x.date)) (monthIdx t.date) + k),
            sumSigned ((t :: ts).filter (fun x =>
              monthIdx x.date ==
                ts.foldl (fun a x => min a (monthIdx x.date)) (monthIdx t.date) + k)))) :=
  rfl

/-- C2 (amended): the monthly resample of a non-empty set emits one
(month-start, summed signed_amount) entry for EVERY calendar month between the
earliest and latest transaction months inclusive — months without transactions
are synthesized with sum 0 — and the empty set resamples to the empty
sequence. -/
theorem claim_C2_amended_resample_spans_range (l : List Txn) :
    (l = [] → resample_monthly l = []) ∧
    (l ≠ [] → ∃ lo hi,
      (∀ t ∈ l, lo ≤ monthIdx t.date ∧ monthIdx t.date ≤ hi) ∧
      (∃ t ∈ l, monthIdx t.date = lo) ∧
      (∃ t ∈ l, monthIdx t.date = hi) ∧
      resample_monthly l = (List.range (hi + 1 - lo)).map (fun k =>
        (monthStart (lo + k),
          sumSigned (l.filter (fun x => monthIdx x.date == lo + k))))) := by
  constructor
  · intro h; subst h; rfl
  · intro hne
    cases hl : l with
    | nil => exact absurd hl hne
    | cons t ts =>
      have hbound : ∀ x ∈ t :: ts,
          ts.foldl (fun a x => min a (monthIdx x.date)) (monthIdx t.date) ≤ monthIdx x.date ∧
          monthIdx x.date ≤ ts.foldl (fun a x => max a (monthIdx x.date)) (monthIdx t.date) := by
        intro x hx
        rcases List.mem_cons.mp hx with h | h
        · subst h
          exact ⟨foldl_min_le_init (fun x : Txn => monthIdx x.date) ts _,
            foldl_max_init_le (fun x : Txn => monthIdx x.date) ts _⟩
        · exact ⟨foldl_min_le_mem (fun x : Txn => monthIdx x.date) ts _ x h,
            foldl_max_mem_le (fun x : Txn => monthIdx x.date) ts _ x h⟩
      have hmin : ∃ x ∈ t :: ts,
          monthIdx x.date = ts.foldl (fun a x => min a (monthIdx x.date)) (monthIdx t.date) := by
        rcases foldl_min_attained (fun x : Txn => monthIdx x.date) ts (monthIdx t.date) with
          h | ⟨x, hx, hfx⟩
        · exact ⟨t, List.mem_cons_self _ _, h.symm⟩
        · exact ⟨x, List.mem_cons_of_mem _ hx, hfx.symm⟩
      have hmax : ∃ x ∈ t :: ts,
          monthIdx x.date = ts.foldl (fun a x => max a (monthIdx x.date)) (monthIdx t.date) := by
        rcases foldl_max_attained (fun x : Txn => monthIdx x.date) ts (monthIdx t.date) with
          h | ⟨x, hx, hfx⟩
        · exact ⟨t, List.mem_cons_self _ _, h.symm⟩
        · exact ⟨x, List.mem_cons_of_mem _ hx, hfx.symm⟩
      exact ⟨_, _, hbound, hmin, hmax, resample_monthly_cons t ts⟩

/-- C2 counterexample: a set with transactions only in January and March 2024
nevertheless produces a February 2024 entry (with sum 0), so entries are NOT
limited to months containing at least one transaction. -/
theorem claim_C2_counterexample :
    ((⟨2024, 2, 1⟩ : Date), (0 : Int)) ∈ resample_monthly exGap ∧
    exGap.all (fun t => monthIdx t.date != monthIdx ⟨2024, 2, 1⟩) = true := by
  decide

/-- C2 witness: the amended statement applied to the concrete January/March
set. -/
theorem claim_C2_witness :
    exGap ≠ [] ∧ ∃ lo hi,
      (∀ t ∈ exGap, lo ≤ monthIdx t.date ∧ monthIdx t.date ≤ hi) ∧
      (∃ t ∈ exGap, monthIdx t.date = lo) ∧
      (∃ t ∈ exGap, monthIdx t.date = hi) ∧
      resample_monthly exGap = (List.range (hi + 1 - lo)).map (fun k =>
        (monthStart (lo + k),
          sumSigned (exGap.filter (fun x => monthIdx x.date == lo + k)))) :=
  ⟨by decide, (claim_C2_amended_resample_spans_range exGap).2 (by decide)⟩

theorem charListLe_total : ∀ (a b : List Char),
    charListLe a b = true ∨ charListLe b a = true := by
  intro a
  induction a with
  | nil => intro b; exact Or.inl rfl
  | cons x xs ih =>
    intro b
    cases b with
    | nil => exact Or.inr rfl
    | cons y ys =>
      by_cases hxy : x = y
      · subst hxy
        rcases ih ys with h | h
        · exact Or.inl (by simp only [charListLe, if_pos rfl]; exact h)
        · exact Or.inr (by simp only [charListLe, if_pos rfl]; exact h)
      · rcases lt_or_gt_of_ne hxy with h | h
        · refine Or.inl ?_
          simp only [charListLe, if_neg hxy]
          exact decide_eq_true h
        · refine Or.inr ?_
          simp only [charListLe, if_neg (Ne.symm hxy)]
          exact decide_eq_true h

theorem charListLe_trans : ∀ {a b c : List Char},
    charListLe a b = true → charListLe b c = true → charListLe a c = true := by
  intro a
  induction a with
  | nil => intro b c _ _; rfl
  | cons x xs ih =>
    intro b c h1 h2
    cases b with
    | nil => simp [charListLe] at h1
    | cons y ys =>
      cases c with
      | nil => simp [charListLe] at h2
      | cons z zs =>
        by_cases hxy : x = y
        · subst hxy
          by_cases hyz : x = z
          · subst hyz
            simp only [charListLe, if_pos rfl] at h1 h2 ⊢
            exact ih h1 h2
          · simp only [charListLe, if_pos rfl] at h1
            simp only [charListLe, if_neg hyz] at h2 ⊢
            exact h2
        · by_cases hyz : y = z
          · subst hyz
            simp only [charListLe, if_neg hxy] at h1 ⊢
            exact h1
          · simp only [charListLe, if_neg hxy] at h1
            simp only [charListLe, if_neg hyz] at h2
            have hx : x < y := of_decide_eq_true h1
            have hy : y < z := of_decide_eq_true h2
            simp only [charListLe, if_neg (ne_of_lt (lt_trans hx hy))]
            exact decide_eq_true (lt_trans hx hy)

theorem lexLe_sum_le {p q : String × Int} (h : lexLe p q) : p.2 ≤ q.2 := by
  rcases h with h | ⟨h, _⟩
  · exact le_of_lt h
  · exact le_of_eq h

theorem orderedInsert_lex (a : String × Int) :
    ∀ (L : List (String × Int)), L.Pairwise lexLe → (∀ x ∈ L, strNameLt a.1 x.1) →
      (List.orderedInsert (fun p q : String × Int => p.2 ≤ q.2) a L).Pairwise lexLe := by
  intro L
  induction L with
  | nil => intro _ _; simp [List.orderedInsert]
  | cons b L ih =>
    intro hp hn
    simp only [List.orderedInsert]
    by_cases hab : a.2 ≤ b.2
    · rw [if_pos hab]
      refine List.pairwise_cons.mpr ⟨?_, hp⟩
      intro x hx
      rcases List.mem_cons.mp hx with h | h
      · subst h
        rcases lt_or_eq_of_le hab with h2 | h2
        · exact Or.inl h2
        · exact Or.inr ⟨h2, hn x (List.mem_cons_self _ _)⟩
      · have hbx := (List.pairwise_cons.mp hp).1 x h
        have hax : a.2 ≤ x.2 := le_trans hab (lexLe_sum_le hbx)
        rcases lt_or_eq_of_le hax with h2 | h2
        · exact Or.inl h2
        · exact Or.inr ⟨h2, hn x (List.mem_cons_of_mem _ h)⟩
    · rw [if_neg hab]
      refine List.pairwise_cons.mpr
        ⟨?_, ih (List.pairwise_cons.mp hp).2
          (fun x hx => hn x (List.mem_cons_of_mem _ hx))⟩
      intro x hx
      rcases (List.mem_orderedInsert _).mp hx with h | h
      · subst h
        exact Or.inl (not_le.mp hab)
      · exact (List.pairwise_cons.mp hp).1 x h

theorem insertionSort_lex :
    ∀ (g : List (String × Int)), g.Pairwise (fun p q => strNameLt p.1 q.1) →
      (List.insertionSort (fun p q : String × Int => p.2 ≤ q.2) g).Pairwise lexLe := by
  intro g
  induction g with
  | nil => intro _; simp [List.insertionSort]
  | cons a g ih =>
    intro hp
    simp only [List.insertionSort]
    apply orderedInsert_lex
    · exact ih (List.pairwise_cons.mp hp).2
    · intro x hx
      exact (List.pairwise_cons.mp hp).1 x ((List.perm_insertionSort _ g).subset hx)

theorem catKeys_lt (sel : List Txn) :
    (catKeys sel).Pairwise strNameLt := by
  have hperm : List.Perm (catKeys sel) ((sel.map (fun t => t.category)).dedup) :=
    List.perm_insertionSort _ _
  have hnodup : (catKeys sel).Nodup :=
    hperm.nodup_iff.mpr (List.nodup_dedup _)
  haveI : IsTotal String (fun a b : String => charListLe a.data b.data = true) :=
    ⟨fun a b => charListLe_total a.data b.data⟩
  haveI : IsTrans String (fun a b : String => charListLe a.data b.data = true) :=
    ⟨fun _ _ _ => charListLe_trans⟩
  have hsorted : (catKeys sel).Pairwise
      (fun a b : String => charListLe a.data b.data = true) :=
    List.sorted_insertionSort _ _
  exact (hsorted.and hnodup).imp (fun h => ⟨h.1, h.2⟩)

theorem groupedPairs_map_fst (sel : List Txn) :
    (groupedPairs sel).map Prod.fst = catKeys sel := by
  unfold groupedPairs
  rw [List.map_map]
  have hid : (Prod.fst ∘ fun c => (c, catSum sel c)) = @id String := rfl
  rw [hid, List.map_id]

/-- C5: `group_by_category` first restricts to the requested type, produces
one entry per distinct category of that restriction whose value is the sum of
`amount` over the category, and orders the entries ascending by summed amount
with ties between equal sums broken by category name. -/
theorem claim_C5_group_by_category (l : List Txn) (ty : String) :
    (∀ p ∈ group_by_category l ty,
        p.2 = catSum (l.filter (fun t => t.type == ty)) p.1) ∧
    (∀ c : String,
        c ∈ (group_by_category l ty).map Prod.fst ↔
          c ∈ (l.filter (fun t => t.type == ty)).map (fun t => t.category)) ∧
    ((group_by_category l ty).map Prod.fst).Nodup ∧
    (group_by_category l ty).Pairwise lexLe := by
  have hout : List.Perm (group_by_category l ty)
      (groupedPairs (l.filter (fun t => t.type == ty))) :=
    List.perm_insertionSort _ _
  have houtfst : List.Perm ((group_by_category l ty).map Prod.fst)
      (catKeys (l.filter (fun t => t.type == ty))) := by
    rw [← groupedPairs_map_fst]
    exact hout.map Prod.fst
  have hkeys : List.Perm (catKeys (l.filter (fun t => t.type == ty)))
      (((l.filter (fun t => t.type == ty)).map (fun t => t.category)).dedup) :=
    List.perm_insertionSort _ _
  refine ⟨?_, ?_, ?_, ?_⟩
  · intro p hp
    have hp' : p ∈ groupedPairs (l.filter (fun t => t.type == ty)) := hout.subset hp
    obtain ⟨c, _, hc⟩ := List.mem_map.mp hp'
    rw [← hc]
  · intro c
    rw [houtfst.mem_iff, hkeys.mem_iff, List.mem_dedup]
  · exact houtfst.nodup_iff.mpr
      (hkeys.nodup_iff.mpr (List.nodup_dedup _))
  · exact insertionSort_lex _
      (List.pairwise_map.mpr ((catKeys_lt _).imp (fun h => h)))

/-- C5 witness: the concrete table with two Groceries debits (sum 50), an
Other debit (sum 5) and a Salary credit; the debit grouping contains
("Groceries", 50), that value is the category sum, and the output is ordered
by the lexicographic (sum, name) relation. -/
theorem claim_C5_witness :
    (("Groceries", (50 : Int)) ∈ group_by_category exTable5 "debit") ∧
    (("Groceries", (50 : Int)).2 =
      catSum (exTable5.filter (fun t => t.type == "debit")) ("Groceries", (50 : Int)).1) ∧
    (group_by_category exTable5 "debit").Pairwise lexLe :=
  ⟨by decide,
   (claim_C5_group_by_category exTable5 "debit").1 ("Groceries", (50 : Int)) (by decide),
   (claim_C5_group_by_category exTable5 "debit").2.2.2⟩

theorem heapGet_append_lt {h : Heap} {v : Frame} {r : Nat} (hr : r < h.length) :
    heapGet (h ++ [v]) r = heapGet h r := by
  unfold heapGet
  rw [List.getD_eq_getElem?_getD, List.getD_eq_getElem?_getD,
    List.getElem?_append_left hr]

theorem heapGet_append_len (h : Heap) (v : Frame) :
    heapGet (h ++ [v]) h.length = v := by
  unfold heapGet
  rw [List.getD_eq_getElem?_getD, List.getElem?_append_right (Nat.le_refl _)]
  simp

theorem heapGet_set_ne {h : Heap} {v : Frame} {i r : Nat} (hne : i ≠ r) :
    heapGet (h.set i v) r = heapGet h r := by
  unfold heapGet
  rw [List.getD_eq_getElem?_getD, List.getD_eq_getElem?_getD,
    List.getElem?_set_ne hne]

theorem heapGet_set_self {h : Heap} {v : Frame} {i : Nat} (hi : i < h.length) :
    heapGet (h.set i v) i = v := by
  unfold heapGet
  rw [List.getD_eq_getElem?_getD, List.getElem?_set_self hi]
  rfl

theorem runFilterView_frame (h : Heap) (r : Nat) (types : List String) (a b : Date)
    (hr : r < h.length) :
    heapGet (runFilterView h r types a b).1 r = heapGet h r := by
  simp only [runFilterView]
  split
  · rw [heapGet_set_ne (by simp; omega), heapGet_set_ne (by simp; omega),
      heapGet_append_lt (by simp; omega), heapGet_append_lt hr]
  · rw [heapGet_set_ne (by simp; omega),
      heapGet_append_lt (by simp; omega), heapGet_append_lt hr]

theorem runFilterView_view (h : Heap) (r : Nat) (types : List String) (a b : Date) :
    heapGet (runFilterView h r types a b).1 (runFilterView h r types a b).2 =
      mkFilteredView (heapGet h r) types a b := by
  simp only [runFilterView, mkFilteredView]
  rw [heapGet_append_len]
  rw [heapGet_append_len]
  rw [heapGet_set_self (by simp)]
  split
  · rw [heapGet_set_self (by simp)]
  · rw [heapGet_set_self (by simp)]

/-- C10: running the filter-and-derive block against the store never mutates
the canonical table's cell: the block works on a copy, the resulting view is a
pure function of the canonical content, and a second identical filter request
over the resulting store sees the same canonical input and produces the
identical view. -/
theorem claim_C10_canonical_table_not_mutated (h : Heap) (r : Nat)
    (types : List String) (a b : Date) (hr : r < h.length) :
    heapGet (runFilterView h r types a b).1 r = heapGet h r ∧
    heapGet (runFilterView h r types a b).1 (runFilterView h r types a b).2 =
      mkFilteredView (heapGet h r) types a b ∧
    heapGet (runFilterView (runFilterView h r types a b).1 r types a b).1
        (runFilterView (runFilterView h r types a b).1 r types a b).2 =
      heapGet (runFilterView h r types a b).1 (runFilterView h r types a b).2 := by
  refine ⟨runFilterView_frame h r types a b hr, runFilterView_view h r types a b, ?_⟩
  rw [runFilterView_view, runFilterView_view, runFilterView_frame h r types a b hr]

/-- C10 witness: a concrete one-cell store; the canonical cell is unchanged by
the filter block. -/
theorem claim_C10_witness :
    0 < exHeap.length ∧
    heapGet (runFilterView exHeap 0 ["debit"] ⟨2024, 1, 1⟩ ⟨2024, 12, 31⟩).1 0 =
      heapGet exHeap 0 :=
  ⟨by decide,
   (claim_C10_canonical_table_not_mutated exHeap 0 ["debit"] ⟨2024, 1, 1⟩
     ⟨2024, 12, 31⟩ (by decide)).1⟩
